import Mathlib

/-!
Verification of the `naive-graph` library (`src/lib.rs`).

The Rust code stores a graph as three `HashMap`s plus a shared monotone
counter:

  * `next_id : usize` — one allocation sequence shared by node and edge ids;
  * `nodes_data : HashMap<NodeId, NodeUserData>`;
  * `edges_data : HashMap<EdgeId, EdgeUserData>`;
  * `edge_nodes : HashMap<EdgeId, (NodeId, NodeId)>`.

We embed the maps as association lists (`List (K × V)`): `lookupKV` models
`HashMap::get` (first matching key), `insertKV` models `HashMap::insert`
(replace any existing entry for the key), `eraseKey` models
`HashMap::remove`.  Iteration order of a Rust `HashMap` is unspecified, so
the list order carries no more information than the real code guarantees.
`unwrap` on a missing key (a Rust panic) is modelled by `Option`-valued
results.
-/

namespace NaiveGraph

/-- Model of `HashMap::get`: first entry with the given key. -/
def lookupKV {K V : Type} [DecidableEq K] : List (K × V) → K → Option V
  | [], _ => none
  | (k, v) :: rest, k' => if k = k' then some v else lookupKV rest k'

/-- Model of `HashMap::remove`: drop every entry with the given key. -/
def eraseKey {K V : Type} [DecidableEq K] (k : K) (m : List (K × V)) : List (K × V) :=
  m.filter (fun p => decide (p.1 ≠ k))

/-- Model of `HashMap::insert`: replace any existing entry for the key. -/
def insertKV {K V : Type} [DecidableEq K] (m : List (K × V)) (k : K) (v : V) : List (K × V) :=
  (k, v) :: eraseKey k m

/-- Rust `struct NodeId(usize)`: a tagged integer handle for nodes. -/
structure NodeId where
  id : Nat
deriving DecidableEq

/-- Rust `struct EdgeId(usize)`: a tagged integer handle for edges. -/
structure EdgeId where
  id : Nat
deriving DecidableEq

/-- Rust `struct Graph<NodeUserData, EdgeUserData>`. -/
structure Graph (N E : Type) where
  next_id : Nat
  nodes_data : List (NodeId × N)
  edges_data : List (EdgeId × E)
  edge_nodes : List (EdgeId × (NodeId × NodeId))
deriving DecidableEq

/-- Rust `impl Default for Graph`: the empty graph with `next_id = 0`. -/
def Graph.new {N E : Type} : Graph N E :=
  { next_id := 0, nodes_data := [], edges_data := [], edge_nodes := [] }

/-- Rust `Graph::add_node`: allocate `NodeId(next_id)`, bump the counter,
insert the payload; returns the updated graph and the fresh handle. -/
def Graph.add_node {N E : Type} (g : Graph N E) (node : N) : Graph N E × NodeId :=
  let id : NodeId := ⟨g.next_id⟩
  ({ g with next_id := g.next_id + 1,
            nodes_data := insertKV g.nodes_data id node }, id)

/-- Rust `Graph::remove_node`: collect every edge whose endpoint pair
contains `id`, remove each collected edge from `edge_nodes` and
`edges_data`, then remove the node itself. -/
def Graph.remove_node {N E : Type} (g : Graph N E) (id : NodeId) : Graph N E :=
  let edges :=
    (g.edge_nodes.filter (fun p => decide (p.2.1 = id) || decide (p.2.2 = id))).map Prod.fst
  { g with
    edge_nodes := edges.foldl (fun m e => eraseKey e m) g.edge_nodes,
    edges_data := edges.foldl (fun m e => eraseKey e m) g.edges_data,
    nodes_data := eraseKey id g.nodes_data }

/-- Rust `Graph::add_edge`: allocate `EdgeId(next_id)` (same counter as
nodes), bump it, insert the payload and the endpoint pair; no check that
the endpoints exist. -/
def Graph.add_edge {N E : Type} (g : Graph N E) (l r : NodeId) (edge : E) :
    Graph N E × EdgeId :=
  let id : EdgeId := ⟨g.next_id⟩
  ({ g with next_id := g.next_id + 1,
            edges_data := insertKV g.edges_data id edge,
            edge_nodes := insertKV g.edge_nodes id (l, r) }, id)

/-- Rust `Graph::remove_edge`: drop the edge from both edge maps. -/
def Graph.remove_edge {N E : Type} (g : Graph N E) (id : EdgeId) : Graph N E :=
  { g with
    edge_nodes := eraseKey id g.edge_nodes,
    edges_data := eraseKey id g.edges_data }

/-- Rust `Graph::node_count`: `nodes_data.len()`. -/
def Graph.node_count {N E : Type} (g : Graph N E) : Nat :=
  g.nodes_data.length

/-- Body of Rust `Graph::visit_edges`: walk `edges_data`; for each edge,
`unwrap` its endpoint pair and the two node payloads (`none` models the
panic on a missing key) and emit `(id, data1, data2, data)`. -/
def visitAux {N E : Type} (g : Graph N E) :
    List (EdgeId × E) → Option (List (EdgeId × N × N × E))
  | [] => some []
  | (id, data) :: rest =>
    (lookupKV g.edge_nodes id).bind fun n12 =>
    (lookupKV g.nodes_data n12.1).bind fun data1 =>
    (lookupKV g.nodes_data n12.2).bind fun data2 =>
    (visitAux g rest).map fun t => (id, data1, data2, data) :: t

/-- Rust `Graph::visit_edges`, as the list of tuples passed to the callback. -/
def Graph.visit_edges {N E : Type} (g : Graph N E) :
    Option (List (EdgeId × N × N × E)) :=
  visitAux g g.edges_data

/-- Rust `Graph::index_twice_mut`: `index_mut` on `id1` then `id2` (each an
`unwrap`), returning the two payloads in that order. -/
def Graph.index_twice_mut {N E : Type} (g : Graph N E) (id1 id2 : NodeId) :
    Option (N × N) :=
  match lookupKV g.nodes_data id1, lookupKV g.nodes_data id2 with
  | some a, some b => some (a, b)
  | _, _ => none

/-- Writing a value through a mutable reference obtained for node `id`
(`index_mut` / either reference of `index_twice_mut`) overwrites that
node's payload entry in place and touches nothing else. -/
def Graph.set_node {N E : Type} (g : Graph N E) (id : NodeId) (v : N) : Graph N E :=
  { g with nodes_data := g.nodes_data.map (fun p => if p.1 = id then (p.1, v) else p) }

/-- Loop body of Rust `Graph::neighbors`: for each edge pair `(l, r)`,
push `*l` when `l == id`, else push `*r` when `r == id` (note: the code
pushes the matching side, i.e. the queried id itself). -/
def neighborsAux (id : NodeId) : List (EdgeId × (NodeId × NodeId)) → List NodeId
  | [] => []
  | (_, (l, r)) :: rest =>
    if l = id then l :: neighborsAux id rest
    else if r = id then r :: neighborsAux id rest
    else neighborsAux id rest

/-- Rust `struct Neighbors(Vec<NodeId>)`. -/
structure Neighbors where
  list : List NodeId
deriving DecidableEq

/-- Rust `Graph::neighbors`. -/
def Graph.neighbors {N E : Type} (g : Graph N E) (id : NodeId) : Neighbors :=
  ⟨neighborsAux id g.edge_nodes⟩

/-- Loop body of Rust `Graph::neighbors_data`: like `neighborsAux` but
pairing the pushed id with `nodes_data.get(..).unwrap()` on that same id
(`none` models the panic). -/
def neighborsDataAux {N E : Type} (g : Graph N E) (id : NodeId) :
    List (EdgeId × (NodeId × NodeId)) → Option (List (NodeId × N))
  | [] => some []
  | (_, (l, r)) :: rest =>
    if l = id then
      (lookupKV g.nodes_data l).bind fun d =>
        (neighborsDataAux g id rest).map fun t => (l, d) :: t
    else if r = id then
      (lookupKV g.nodes_data r).bind fun d =>
        (neighborsDataAux g id rest).map fun t => (r, d) :: t
    else neighborsDataAux g id rest

/-- Rust `Graph::neighbors_data`, as the snapshot list it builds. -/
def Graph.neighbors_data {N E : Type} (g : Graph N E) (id : NodeId) :
    Option (List (NodeId × N)) :=
  neighborsDataAux g id g.edge_nodes

/-- Rust `struct NeighborsIter(bool, usize, Vec<NodeId>)`: done flag,
cursor index, owned snapshot. -/
structure NeighborsIter where
  done : Bool
  idx : Nat
  list : List NodeId
deriving DecidableEq

/-- Rust `Neighbors::detach`. -/
def Neighbors.detach (n : Neighbors) : NeighborsIter :=
  ⟨false, 0, n.list⟩

/-- Rust `NeighborsIter::next_node`: one step of the cursor; returns the
produced value and the cursor's successor state. -/
def NeighborsIter.next_node (it : NeighborsIter) : Option NodeId × NeighborsIter :=
  if it.done then (none, it)
  else if it.idx = it.list.length then (none, { it with done := true })
  else (it.list.get? it.idx, { it with idx := it.idx + 1 })

/-- Repeated stepping: `stepN it k` is the result of the `(k+1)`-st call to
`next_node` after `k` earlier calls. -/
def stepN (it : NeighborsIter) : Nat → Option NodeId × NeighborsIter
  | 0 => it.next_node
  | k + 1 => stepN it.next_node.2 k

/-- The public mutating operations of the library, as trace elements. -/
inductive Op (N E : Type) where
  | addNode (node : N)
  | removeNode (id : NodeId)
  | addEdge (l r : NodeId) (edge : E)
  | removeEdge (id : EdgeId)

/-- Run a trace of public operations from a starting graph, recording the
underlying integer of every handle returned by `add_node` / `add_edge`,
in call order. -/
def run {N E : Type} (g : Graph N E) : List (Op N E) → Graph N E × List Nat
  | [] => (g, [])
  | Op.addNode node :: rest =>
    let p := g.add_node node
    let q := run p.1 rest
    (q.1, p.2.id :: q.2)
  | Op.removeNode id :: rest => run (g.remove_node id) rest
  | Op.addEdge l r e :: rest =>
    let p := g.add_edge l r e
    let q := run p.1 rest
    (q.1, p.2.id :: q.2)
  | Op.removeEdge id :: rest => run (g.remove_edge id) rest

/-- Graph states reachable from the empty graph by public operations. -/
inductive Reachable {N E : Type} : Graph N E → Prop where
  | new : Reachable Graph.new
  | add_node (g : Graph N E) (x : N) : Reachable g → Reachable (g.add_node x).1
  | remove_node (g : Graph N E) (n : NodeId) : Reachable g → Reachable (g.remove_node n)
  | add_edge (g : Graph N E) (l r : NodeId) (e : E) :
      Reachable g → Reachable (g.add_edge l r e).1
  | remove_edge (g : Graph N E) (e : EdgeId) : Reachable g → Reachable (g.remove_edge e)

/-- Graph states reachable when the caller honours the documented
obligation on `add_edge`: both endpoints are present at call time. -/
inductive ReachableV {N E : Type} : Graph N E → Prop where
  | new : ReachableV Graph.new
  | add_node (g : Graph N E) (x : N) : ReachableV g → ReachableV (g.add_node x).1
  | remove_node (g : Graph N E) (n : NodeId) : ReachableV g → ReachableV (g.remove_node n)
  | add_edge (g : Graph N E) (l r : NodeId) (e : E) :
      ReachableV g →
      (lookupKV g.nodes_data l).isSome → (lookupKV g.nodes_data r).isSome →
      ReachableV (g.add_edge l r e).1
  | remove_edge (g : Graph N E) (e : EdgeId) : ReachableV g → ReachableV (g.remove_edge e)

/-- Referential integrity: every endpoint stored in the edge-endpoint index
refers to a node currently present in the node store. -/
def EndpointsValid {N E : Type} (g : Graph N E) : Prop :=
  ∀ p ∈ g.edge_nodes,
    (lookupKV g.nodes_data p.2.1).isSome ∧ (lookupKV g.nodes_data p.2.2).isSome

/-- Well-formedness maintained by every public operation: node keys are
duplicate-free, and the edge-payload map and the edge-endpoint map hold
exactly the same `EdgeId` keys. -/
structure WF {N E : Type} (g : Graph N E) : Prop where
  nodes_nodup : (g.nodes_data.map Prod.fst).Nodup
  keys_iff : ∀ e : EdgeId,
    (lookupKV g.edges_data e).isSome ↔ (lookupKV g.edge_nodes e).isSome

/-- Concrete state: the empty graph over `Nat` payloads. -/
def g0 : Graph Nat Nat := Graph.new

/-- Concrete state: one node, `NodeId 0 ↦ 10`. -/
def gA : Graph Nat Nat := (g0.add_node 10).1

/-- Concrete state: nodes `NodeId 0 ↦ 10` and `NodeId 1 ↦ 20`. -/
def gB : Graph Nat Nat := (gA.add_node 20).1

/-- Concrete state: `gB` plus the edge `EdgeId 2 : (0, 1) ↦ 5`. -/
def gAB : Graph Nat Nat := (gB.add_edge ⟨0⟩ ⟨1⟩ 5).1

/-- Concrete state: `add_edge(NodeId 0, NodeId 0, 7)` on the empty graph —
a dangling edge, since no node exists. -/
def gDangling : Graph Nat Nat := (Graph.new.add_edge ⟨0⟩ ⟨0⟩ 7).1

/-! ## Lemmas about the association-list primitives -/

theorem eraseKey_nil {K V : Type} [DecidableEq K] (k : K) :
    eraseKey k ([] : List (K × V)) = [] := rfl

theorem eraseKey_cons {K V : Type} [DecidableEq K] (k a : K) (b : V) (rest : List (K × V)) :
    eraseKey k ((a, b) :: rest) =
      if a = k then eraseKey k rest else (a, b) :: eraseKey k rest := by
  by_cases h : a = k <;> simp [eraseKey, List.filter_cons, h]

theorem lookupKV_cons {K V : Type} [DecidableEq K] (a : K) (b : V) (rest : List (K × V))
    (k : K) :
    lookupKV ((a, b) :: rest) k = if a = k then some b else lookupKV rest k := rfl

theorem lookupKV_eraseKey_self {K V : Type} [DecidableEq K] (m : List (K × V)) (k : K) :
    lookupKV (eraseKey k m) k = none := by
  induction m with
  | nil => rfl
  | cons p rest ih =>
    obtain ⟨a, b⟩ := p
    rw [eraseKey_cons]
    by_cases hp : a = k
    · simpa [hp] using ih
    · simpa [lookupKV_cons, hp] using ih

theorem lookupKV_eraseKey_ne {K V : Type} [DecidableEq K] (m : List (K × V)) (k k' : K)
    (h : k ≠ k') :
    lookupKV (eraseKey k m) k' = lookupKV m k' := by
  induction m with
  | nil => rfl
  | cons p rest ih =>
    obtain ⟨a, b⟩ := p
    rw [eraseKey_cons]
    by_cases hp : a = k
    · rw [if_pos hp, ih, lookupKV_cons, if_neg (fun ha => h (hp.symm.trans ha))]
    · rw [if_neg hp, lookupKV_cons, lookupKV_cons, ih]

theorem lookupKV_insertKV_self {K V : Type} [DecidableEq K] (m : List (K × V)) (k : K) (v : V) :
    lookupKV (insertKV m k v) k = some v := by
  simp [insertKV, lookupKV_cons]

theorem lookupKV_insertKV_ne {K V : Type} [DecidableEq K] (m : List (K × V)) (k k' : K)
    (v : V) (h : k ≠ k') :
    lookupKV (insertKV m k v) k' = lookupKV m k' := by
  rw [insertKV, lookupKV_cons, if_neg h, lookupKV_eraseKey_ne m k k' h]

theorem mem_eraseKey {K V : Type} [DecidableEq K] (m : List (K × V)) (k : K) (p : K × V) :
    p ∈ eraseKey k m ↔ p ∈ m ∧ p.1 ≠ k := by
  simp [eraseKey, List.mem_filter]

theorem lookupKV_eq_none_iff {K V : Type} [DecidableEq K] (m : List (K × V)) (k : K) :
    lookupKV m k = none ↔ ∀ p ∈ m, p.1 ≠ k := by
  induction m with
  | nil => simp [lookupKV]
  | cons p rest ih =>
    obtain ⟨a, b⟩ := p
    rw [lookupKV_cons]
    by_cases ha : a = k
    · simp [ha]
    · simp [ha, ih]

theorem lookupKV_mem {K V : Type} [DecidableEq K] (m : List (K × V)) (k : K) (v : V)
    (h : lookupKV m k = some v) : (k, v) ∈ m := by
  induction m with
  | nil => simp [lookupKV] at h
  | cons p rest ih =>
    obtain ⟨a, b⟩ := p
    rw [lookupKV_cons] at h
    by_cases ha : a = k
    · rw [if_pos ha] at h
      have hv : b = v := Option.some_inj.mp h
      subst ha
      subst hv
      exact List.mem_cons_self _ _
    · rw [if_neg ha] at h
      exact List.mem_cons_of_mem _ (ih h)

theorem eraseKey_of_forall_ne {K V : Type} [DecidableEq K] (m : List (K × V)) (k : K)
    (h : ∀ p ∈ m, p.1 ≠ k) : eraseKey k m = m := by
  rw [eraseKey, List.filter_eq_self]
  intro p hp
  simpa using h p hp

theorem eraseKey_of_lookupKV_none {K V : Type} [DecidableEq K] (m : List (K × V)) (k : K)
    (h : lookupKV m k = none) : eraseKey k m = m :=
  eraseKey_of_forall_ne m k ((lookupKV_eq_none_iff m k).mp h)

theorem lookupKV_foldl_eraseKey {K V : Type} [DecidableEq K] (es : List K)
    (m : List (K × V)) (k : K) :
    lookupKV (es.foldl (fun m e => eraseKey e m) m) k =
      if k ∈ es then none else lookupKV m k := by
  induction es generalizing m with
  | nil => simp
  | cons e es ih =>
    rw [List.foldl_cons, ih]
    by_cases hk : k ∈ es
    · simp [hk]
    · by_cases hke : k = e
      · simp [hk, hke, lookupKV_eraseKey_self]
      · simp [hk, hke, lookupKV_eraseKey_ne m e k (fun hc => hke hc.symm)]

theorem mem_foldl_eraseKey {K V : Type} [DecidableEq K] (es : List K)
    (m : List (K × V)) (p : K × V) :
    p ∈ es.foldl (fun m e => eraseKey e m) m ↔ p ∈ m ∧ p.1 ∉ es := by
  induction es generalizing m with
  | nil => simp
  | cons e es ih =>
    rw [List.foldl_cons, ih, mem_eraseKey]
    constructor
    · rintro ⟨⟨hm, hne⟩, hnotin⟩
      exact ⟨hm, by simp [hne, hnotin]⟩
    · rintro ⟨hm, hnotin⟩
      simp only [List.mem_cons, not_or] at hnotin
      exact ⟨⟨hm, hnotin.1⟩, hnotin.2⟩

theorem keys_eraseKey_sublist {K V : Type} [DecidableEq K] (m : List (K × V)) (k : K) :
    ((eraseKey k m).map Prod.fst).Sublist (m.map Prod.fst) :=
  List.Sublist.map Prod.fst (List.filter_sublist m)

theorem nodup_keys_eraseKey {K V : Type} [DecidableEq K] (m : List (K × V)) (k : K)
    (h : (m.map Prod.fst).Nodup) : ((eraseKey k m).map Prod.fst).Nodup :=
  List.Nodup.sublist (keys_eraseKey_sublist m k) h

theorem nodup_keys_insertKV {K V : Type} [DecidableEq K] (m : List (K × V)) (k : K) (v : V)
    (h : (m.map Prod.fst).Nodup) : ((insertKV m k v).map Prod.fst).Nodup := by
  rw [insertKV, List.map_cons, List.nodup_cons]
  refine ⟨?_, nodup_keys_eraseKey m k h⟩
  intro hmem
  obtain ⟨p, hp, hfst⟩ := List.mem_map.mp hmem
  exact ((mem_eraseKey m k p).mp hp).2 hfst

theorem length_eraseKey_of_some {K V : Type} [DecidableEq K] (m : List (K × V)) (k : K)
    (v : V) (hnd : (m.map Prod.fst).Nodup) (h : lookupKV m k = some v) :
    (eraseKey k m).length + 1 = m.length := by
  induction m with
  | nil => simp [lookupKV] at h
  | cons p rest ih =>
    obtain ⟨a, b⟩ := p
    rw [List.map_cons, List.nodup_cons] at hnd
    rw [lookupKV_cons] at h
    rw [eraseKey_cons]
    by_cases ha : a = k
    · rw [if_pos ha, eraseKey_of_forall_ne]
      · simp
      · intro q hq hqk
        exact hnd.1 (List.mem_map.mpr ⟨q, hq, hqk.trans ha.symm⟩)
    · rw [if_neg ha] at h ⊢
      simp only [List.length_cons]
      rw [ih hnd.2 h]

/-! ## Lemmas about edge enumeration (`visit_edges`) -/

theorem visitAux_keys {N E : Type} (g : Graph N E) (es : List (EdgeId × E))
    (t : List (EdgeId × N × N × E)) (h : visitAux g es = some t) :
    t.map (fun x => x.1) = es.map Prod.fst := by
  induction es generalizing t with
  | nil =>
    simp only [visitAux, Option.some_inj] at h
    subst h
    rfl
  | cons p rest ih =>
    obtain ⟨id, data⟩ := p
    simp only [visitAux, Option.bind_eq_some, Option.map_eq_some'] at h
    obtain ⟨n12, hn, d1, hd1, d2, hd2, t', ht', hcons⟩ := h
    subst hcons
    simp only [List.map_cons]
    rw [ih t' ht']

theorem visitAux_total {N E : Type} (g : Graph N E) (es : List (EdgeId × E))
    (h : ∀ p ∈ es, ∃ a b, lookupKV g.edge_nodes p.1 = some (a, b) ∧
      (lookupKV g.nodes_data a).isSome ∧ (lookupKV g.nodes_data b).isSome) :
    ∃ t, visitAux g es = some t := by
  induction es with
  | nil => exact ⟨[], rfl⟩
  | cons p rest ih =>
    obtain ⟨id, data⟩ := p
    obtain ⟨a, b, hn, ha, hb⟩ := h (id, data) (List.mem_cons_self _ _)
    obtain ⟨t, ht⟩ := ih (fun q hq => h q (List.mem_cons_of_mem _ hq))
    obtain ⟨d1, hd1⟩ := Option.isSome_iff_exists.mp ha
    obtain ⟨d2, hd2⟩ := Option.isSome_iff_exists.mp hb
    refine ⟨(id, d1, d2, data) :: t, ?_⟩
    simp [visitAux, hn, hd1, hd2, ht]

/-! ## Lemmas about the cursor (`NeighborsIter`) -/

theorem stepN_of_done (it : NeighborsIter) (h : it.done = true) (k : Nat) :
    stepN it k = (none, it) := by
  induction k with
  | zero => simp [stepN, NeighborsIter.next_node, h]
  | succ k ih =>
    rw [stepN]
    have hnext : it.next_node = (none, it) := by
      simp [NeighborsIter.next_node, h]
    rw [hnext, ih]

theorem stepN_fst_eq_get {l : List NodeId} {i : Nat} (h : i ≤ l.length) (k : Nat) :
    (stepN ⟨false, i, l⟩ k).1 = l.get? (i + k) := by
  induction k generalizing i with
  | zero =>
    by_cases hi : i = l.length
    · have : l.get? (i + 0) = none := by
        apply List.get?_eq_none.mpr
        omega
      simp [stepN, NeighborsIter.next_node, hi, this]
    · simp [stepN, NeighborsIter.next_node, hi]
  | succ k ih =>
    rw [stepN]
    by_cases hi : i = l.length
    · have hnext : (⟨false, i, l⟩ : NeighborsIter).next_node =
          (none, ⟨true, i, l⟩) := by
        simp [NeighborsIter.next_node, hi]
      rw [hnext, stepN_of_done _ rfl]
      have : l.get? (i + (k + 1)) = none := by
        apply List.get?_eq_none.mpr
        omega
      rw [this]
    · have hnext : (⟨false, i, l⟩ : NeighborsIter).next_node =
          (l.get? i, ⟨false, i + 1, l⟩) := by
        simp [NeighborsIter.next_node, hi]
      rw [hnext]
      have hle : i + 1 ≤ l.length := by
        rcases Nat.lt_or_ge i l.length with hlt | hge
        · exact hlt
        · exact absurd (Nat.le_antisymm h hge) hi
      rw [ih hle]
      have harith : i + 1 + k = i + (k + 1) := by omega
      rw [harith]

/-! ## Structural invariants of reachable states -/

theorem wf_new {N E : Type} : WF (Graph.new : Graph N E) := by
  constructor
  · simp [Graph.new]
  · intro e
    simp [Graph.new, lookupKV]

theorem wf_add_node {N E : Type} (g : Graph N E) (x : N) (h : WF g) :
    WF (g.add_node x).1 := by
  constructor
  · exact nodup_keys_insertKV g.nodes_data _ x h.nodes_nodup
  · exact h.keys_iff

theorem wf_remove_node {N E : Type} (g : Graph N E) (n : NodeId) (h : WF g) :
    WF (g.remove_node n) := by
  constructor
  · exact nodup_keys_eraseKey g.nodes_data n h.nodes_nodup
  · intro e
    simp only [Graph.remove_node, lookupKV_foldl_eraseKey]
    by_cases he : e ∈ (g.edge_nodes.filter
        (fun p => decide (p.2.1 = n) || decide (p.2.2 = n))).map Prod.fst
    · rw [if_pos he, if_pos he]
      exact Iff.rfl
    · simpa [he] using h.keys_iff e

theorem wf_add_edge {N E : Type} (g : Graph N E) (l r : NodeId) (x : E) (h : WF g) :
    WF (g.add_edge l r x).1 := by
  constructor
  · exact h.nodes_nodup
  · intro e
    simp only [Graph.add_edge]
    by_cases he : e = ⟨g.next_id⟩
    · subst he
      rw [lookupKV_insertKV_self, lookupKV_insertKV_self]
      simp
    · rw [lookupKV_insertKV_ne _ _ _ _ (fun hc => he hc.symm),
        lookupKV_insertKV_ne _ _ _ _ (fun hc => he hc.symm)]
      exact h.keys_iff e

theorem wf_remove_edge {N E : Type} (g : Graph N E) (e0 : EdgeId) (h : WF g) :
    WF (g.remove_edge e0) := by
  constructor
  · exact h.nodes_nodup
  · intro e
    simp only [Graph.remove_edge]
    by_cases he : e = e0
    · subst he
      rw [lookupKV_eraseKey_self, lookupKV_eraseKey_self]
      exact Iff.rfl
    · rw [lookupKV_eraseKey_ne _ _ _ (fun hc => he hc.symm),
        lookupKV_eraseKey_ne _ _ _ (fun hc => he hc.symm)]
      exact h.keys_iff e

theorem reachable_wf {N E : Type} (g : Graph N E) (h : Reachable g) : WF g := by
  induction h with
  | new => exact wf_new
  | add_node g x _ ih => exact wf_add_node g x ih
  | remove_node g n _ ih => exact wf_remove_node g n ih
  | add_edge g l r e _ ih => exact wf_add_edge g l r e ih
  | remove_edge g e _ ih => exact wf_remove_edge g e ih

/-! ## Lemmas about the allocation sequence -/

theorem run_next_id_mono {N E : Type} (ops : List (Op N E)) (g : Graph N E) :
    g.next_id ≤ (run g ops).1.next_id ∧
    ∀ x ∈ (run g ops).2, g.next_id ≤ x ∧ x < (run g ops).1.next_id := by
  induction ops generalizing g with
  | nil => simp [run]
  | cons op rest ih =>
    cases op with
    | addNode node =>
      obtain ⟨h1, h2⟩ := ih (g.add_node node).1
      refine ⟨?_, ?_⟩
      · simp only [run]
        exact le_trans (by simp [Graph.add_node]) h1
      · intro x hx
        simp only [run, List.mem_cons] at hx
        rcases hx with hx | hx
        · subst hx
          refine ⟨le_refl _, ?_⟩
          calc g.next_id < g.next_id + 1 := Nat.lt_succ_self _
            _ ≤ _ := by simpa [Graph.add_node] using h1
        · obtain ⟨hlo, hhi⟩ := h2 x hx
          exact ⟨le_trans (by simp [Graph.add_node]) hlo, hhi⟩
    | removeNode id =>
      obtain ⟨h1, h2⟩ := ih (g.remove_node id)
      exact ⟨by simpa [run, Graph.remove_node] using h1,
        by simpa [run, Graph.remove_node] using h2⟩
    | addEdge l r e =>
      obtain ⟨h1, h2⟩ := ih (g.add_edge l r e).1
      refine ⟨?_, ?_⟩
      · simp only [run]
        exact le_trans (by simp [Graph.add_edge]) h1
      · intro x hx
        simp only [run, List.mem_cons] at hx
        rcases hx with hx | hx
        · subst hx
          refine ⟨le_refl _, ?_⟩
          calc g.next_id < g.next_id + 1 := Nat.lt_succ_self _
            _ ≤ _ := by simpa [Graph.add_edge] using h1
        · obtain ⟨hlo, hhi⟩ := h2 x hx
          exact ⟨le_trans (by simp [Graph.add_edge]) hlo, hhi⟩
    | removeEdge id =>
      obtain ⟨h1, h2⟩ := ih (g.remove_edge id)
      exact ⟨by simpa [run, Graph.remove_edge] using h1,
        by simpa [run, Graph.remove_edge] using h2⟩

theorem run_issued_sorted {N E : Type} (ops : List (Op N E)) (g : Graph N E) :
    List.Pairwise (fun a b => a < b) (run g ops).2 := by
  induction ops generalizing g with
  | nil => simp [run]
  | cons op rest ih =>
    cases op with
    | addNode node =>
      simp only [run]
      refine List.Pairwise.cons ?_ (ih (g.add_node node).1)
      intro x hx
      have := (run_next_id_mono rest (g.add_node node).1).2 x hx
      have hlt : g.next_id < (g.add_node node).1.next_id := by
        simp [Graph.add_node]
      calc g.next_id < (g.add_node node).1.next_id := hlt
        _ ≤ x := this.1
    | removeNode id =>
      simpa [run] using ih (g.remove_node id)
    | addEdge l r e =>
      simp only [run]
      refine List.Pairwise.cons ?_ (ih (g.add_edge l r e).1)
      intro x hx
      have := (run_next_id_mono rest (g.add_edge l r e).1).2 x hx
      have hlt : g.next_id < (g.add_edge l r e).1.next_id := by
        simp [Graph.add_edge]
      calc g.next_id < (g.add_edge l r e).1.next_id := hlt
        _ ≤ x := this.1
    | removeEdge id =>
      simpa [run] using ih (g.remove_edge id)

theorem run_head_issued {N E : Type} (ops : List (Op N E)) (g : Graph N E) (x : Nat)
    (h : (run g ops).2.head? = some x) : x = g.next_id := by
  induction ops generalizing g with
  | nil => simp [run] at h
  | cons op rest ih =>
    cases op with
    | addNode node =>
      simp only [run, List.head?_cons, Option.some_inj] at h
      exact h.symm
    | removeNode id =>
      simpa [Graph.remove_node] using ih (g.remove_node id) h
    | addEdge l r e =>
      simp only [run, List.head?_cons, Option.some_inj] at h
      exact h.symm
    | removeEdge id =>
      simpa [Graph.remove_edge] using ih (g.remove_edge id) h

/-! ## Lemmas about dual access (`index_twice_mut` / `set_node`) -/

theorem lookupKV_map_set_ne {K V : Type} [DecidableEq K] (m : List (K × V)) (i j : K)
    (v : V) (h : j ≠ i) :
    lookupKV (m.map (fun p => if p.1 = i then (p.1, v) else p)) j = lookupKV m j := by
  induction m with
  | nil => rfl
  | cons p rest ih =>
    obtain ⟨a, b⟩ := p
    simp only [List.map_cons]
    by_cases hai : a = i
    · have hentry : (if (a, b).1 = i then ((a, b).1, v) else (a, b)) = (a, v) := by
        simp [hai]
      rw [hentry, lookupKV_cons, lookupKV_cons]
      have haj : a ≠ j := fun hc => h (hc ▸ hai)
      rw [if_neg haj, if_neg haj, ih]
    · have hentry : (if (a, b).1 = i then ((a, b).1, v) else (a, b)) = (a, b) := by
        simp [hai]
      rw [hentry, lookupKV_cons, lookupKV_cons, ih]

theorem lookupKV_map_set_self {K V : Type} [DecidableEq K] (m : List (K × V)) (i : K)
    (v w : V) (h : lookupKV m i = some w) :
    lookupKV (m.map (fun p => if p.1 = i then (p.1, v) else p)) i = some v := by
  induction m with
  | nil => simp [lookupKV] at h
  | cons p rest ih =>
    obtain ⟨a, b⟩ := p
    simp only [List.map_cons]
    rw [lookupKV_cons] at h
    by_cases hai : a = i
    · have hentry : (if (a, b).1 = i then ((a, b).1, v) else (a, b)) = (a, v) := by
        simp [hai]
      rw [hentry, lookupKV_cons, if_pos hai]
    · have hentry : (if (a, b).1 = i then ((a, b).1, v) else (a, b)) = (a, b) := by
        simp [hai]
      rw [if_neg hai] at h
      rw [hentry, lookupKV_cons, if_neg hai, ih h]

/-! ## Lemmas about removal -/

theorem remove_node_noop {N E : Type} (g : Graph N E) (n : NodeId)
    (hn : lookupKV g.nodes_data n = none)
    (he : ∀ p ∈ g.edge_nodes, p.2.1 ≠ n ∧ p.2.2 ≠ n) :
    g.remove_node n = g := by
  have hfilter :
      g.edge_nodes.filter (fun p => decide (p.2.1 = n) || decide (p.2.2 = n)) = [] := by
    rw [List.filter_eq_nil_iff]
    intro p hp
    obtain ⟨h1, h2⟩ := he p hp
    simp [h1, h2]
  have hnodes : eraseKey n g.nodes_data = g.nodes_data :=
    eraseKey_of_lookupKV_none g.nodes_data n hn
  cases g with
  | mk ni nd ed en =>
    simp only [Graph.remove_node, hfilter] at *
    simp [hnodes]

theorem mem_remove_node_edge_nodes {N E : Type} (g : Graph N E) (n : NodeId)
    (p : EdgeId × (NodeId × NodeId)) (hp : p ∈ (g.remove_node n).edge_nodes) :
    p ∈ g.edge_nodes ∧ p.2.1 ≠ n ∧ p.2.2 ≠ n := by
  simp only [Graph.remove_node] at hp
  obtain ⟨hmem, hnotin⟩ := (mem_foldl_eraseKey _ _ _).mp hp
  refine ⟨hmem, ?_, ?_⟩
  · intro hc
    exact hnotin (List.mem_map.mpr
      ⟨p, List.mem_filter.mpr ⟨hmem, by simp [hc]⟩, rfl⟩)
  · intro hc
    exact hnotin (List.mem_map.mpr
      ⟨p, List.mem_filter.mpr ⟨hmem, by simp [hc]⟩, rfl⟩)

theorem remove_node_idem {N E : Type} (g : Graph N E) (n : NodeId) :
    (g.remove_node n).remove_node n = g.remove_node n := by
  apply remove_node_noop
  · have : (g.remove_node n).nodes_data = eraseKey n g.nodes_data := rfl
    rw [this, lookupKV_eraseKey_self]
  · intro p hp
    exact (mem_remove_node_edge_nodes g n p hp).2

theorem isSome_lookupKV_insertKV {K V : Type} [DecidableEq K] (m : List (K × V))
    (k k' : K) (v : V) (h : (lookupKV m k).isSome) :
    (lookupKV (insertKV m k' v) k).isSome := by
  by_cases hk : k' = k
  · subst hk
    rw [lookupKV_insertKV_self]
    rfl
  · rw [lookupKV_insertKV_ne _ _ _ _ hk]
    exact h

/-! ## Referential integrity under caller-validated `add_edge` -/

theorem endpointsValid_preserved {N E : Type} (g : Graph N E) (h : ReachableV g) :
    EndpointsValid g := by
  induction h with
  | new =>
    intro p hp
    simp [Graph.new] at hp
  | add_node g x _ ih =>
    intro p hp
    obtain ⟨h1, h2⟩ := ih p hp
    constructor
    · exact isSome_lookupKV_insertKV _ _ _ _ h1
    · exact isSome_lookupKV_insertKV _ _ _ _ h2
  | remove_node g n _ ih =>
    intro p hp
    obtain ⟨hmem, hn1, hn2⟩ := mem_remove_node_edge_nodes g n p hp
    obtain ⟨h1, h2⟩ := ih p hmem
    have e1 : lookupKV (g.remove_node n).nodes_data p.2.1 =
        lookupKV g.nodes_data p.2.1 :=
      lookupKV_eraseKey_ne _ _ _ (fun hc => hn1 hc.symm)
    have e2 : lookupKV (g.remove_node n).nodes_data p.2.2 =
        lookupKV g.nodes_data p.2.2 :=
      lookupKV_eraseKey_ne _ _ _ (fun hc => hn2 hc.symm)
    rw [e1, e2]
    exact ⟨h1, h2⟩
  | add_edge g l r e _ hl hr ih =>
    intro p hp
    have hen : (g.add_edge l r e).1.edge_nodes =
        (⟨g.next_id⟩, (l, r)) :: eraseKey ⟨g.next_id⟩ g.edge_nodes := rfl
    rw [hen, List.mem_cons] at hp
    rcases hp with hp | hp
    · rw [hp]
      exact ⟨hl, hr⟩
    · exact ih p ((mem_eraseKey _ _ _).mp hp).1
  | remove_edge g e _ ih =>
    intro p hp
    have hen : (g.remove_edge e).edge_nodes = eraseKey e g.edge_nodes := rfl
    rw [hen] at hp
    exact ih p ((mem_eraseKey _ _ _).mp hp).1

/-! ## The claims -/

/-- C1: evaluation of the code at the failing input.  In the graph with
nodes `NodeId 0 ↦ 10`, `NodeId 1 ↦ 20` and one edge joining them, the
neighbor-handles query on node 0 yields `[NodeId 0]` — the queried node's
own id — where the claim requires the opposite endpoint `{NodeId 1}` and
never the queried node itself; symmetrically for node 1 (the other
endpoint position), and the neighbor-payload query yields the queried
node's own payload. -/
theorem neighbors_yields_own_id :
    (gAB.neighbors ⟨0⟩).list = [⟨0⟩] ∧
    (gAB.neighbors ⟨1⟩).list = [⟨1⟩] ∧
    gAB.neighbors_data ⟨0⟩ = some [(⟨0⟩, 10)] ∧
    (⟨0⟩ : NodeId) ≠ ⟨1⟩ := by
  refine ⟨rfl, rfl, rfl, ?_⟩
  decide

/-- C4: across any sequence of additions and removals starting from the
empty graph, the underlying integers of the handles returned by
`add_node` and `add_edge` (one shared sequence) are pairwise strictly
increasing in call order — hence no two calls ever return equal integers
and no handle is reissued — and the first handle ever issued carries the
integer 0. -/
theorem handle_uniqueness {N E : Type} (ops : List (Op N E)) :
    List.Pairwise (fun a b => a < b) (run Graph.new ops).2 ∧
    (∀ x : Nat, (run Graph.new ops).2.head? = some x → x = 0) :=
  ⟨run_issued_sorted ops Graph.new,
   fun x hx => run_head_issued ops Graph.new x hx⟩

/-- Witness for C4 at the concrete trace
`[addNode 10, removeNode 0, addEdge 0 0 7]`: the issued integers are
pairwise increasing and the first one is 0. -/
theorem handle_uniqueness_witness :
    List.Pairwise (fun a b => a < b)
      (run (Graph.new : Graph Nat Nat)
        [Op.addNode 10, Op.removeNode ⟨0⟩, Op.addEdge ⟨0⟩ ⟨0⟩ 7]).2 ∧
    (0 : Nat) = 0 :=
  ⟨(handle_uniqueness [Op.addNode 10, Op.removeNode ⟨0⟩, Op.addEdge ⟨0⟩ ⟨0⟩ 7]).1,
   (handle_uniqueness
      [Op.addNode (10 : Nat), Op.removeNode ⟨0⟩, Op.addEdge ⟨0⟩ ⟨0⟩ (7 : Nat)]).2 0
      (by decide)⟩

/-- C5: in every state reachable by public operations, the edge-payload
map and the edge-endpoint map contain exactly the same set of `EdgeId`
keys. -/
theorem edge_maps_same_keys {N E : Type} (g : Graph N E) (h : Reachable g) (e : EdgeId) :
    (lookupKV g.edges_data e).isSome ↔ (lookupKV g.edge_nodes e).isSome :=
  (reachable_wf g h).keys_iff e

/-- Witness for C5 at the concrete reachable graph `gAB` and key
`EdgeId 2`. -/
theorem edge_maps_same_keys_witness :
    (lookupKV gAB.edges_data ⟨2⟩).isSome ↔ (lookupKV gAB.edge_nodes ⟨2⟩).isSome :=
  edge_maps_same_keys gAB
    (Reachable.add_edge gB ⟨0⟩ ⟨1⟩ 5
      (Reachable.add_node gA 20 (Reachable.add_node g0 10 Reachable.new)))
    ⟨2⟩

/-- C7: for distinct node ids both present, `index_twice_mut` returns
`id1`'s payload then `id2`'s payload; writing through the first reference
(`set_node id1`) leaves `id2`'s payload unchanged and vice versa, and
after writing through both, both written values are observed by plain
lookups. -/
theorem index_twice_mut_independent {N E : Type} (g : Graph N E) (id1 id2 : NodeId)
    (p1 p2 v1 v2 : N) (hne : id1 ≠ id2)
    (h1 : lookupKV g.nodes_data id1 = some p1)
    (h2 : lookupKV g.nodes_data id2 = some p2) :
    g.index_twice_mut id1 id2 = some (p1, p2) ∧
    lookupKV (g.set_node id1 v1).nodes_data id2 = some p2 ∧
    lookupKV (g.set_node id2 v2).nodes_data id1 = some p1 ∧
    lookupKV ((g.set_node id1 v1).set_node id2 v2).nodes_data id1 = some v1 ∧
    lookupKV ((g.set_node id1 v1).set_node id2 v2).nodes_data id2 = some v2 := by
  have hne' : id2 ≠ id1 := fun hc => hne hc.symm
  refine ⟨?_, ?_, ?_, ?_, ?_⟩
  · rw [Graph.index_twice_mut, h1, h2]
  · exact (lookupKV_map_set_ne g.nodes_data id1 id2 v1 hne').trans h2
  · exact (lookupKV_map_set_ne g.nodes_data id2 id1 v2 hne).trans h1
  · have hstep : lookupKV (g.set_node id1 v1).nodes_data id1 = some v1 :=
      lookupKV_map_set_self g.nodes_data id1 v1 p1 h1
    exact (lookupKV_map_set_ne (g.set_node id1 v1).nodes_data id2 id1 v2 hne).trans hstep
  · have hstep : lookupKV (g.set_node id1 v1).nodes_data id2 = some p2 :=
      (lookupKV_map_set_ne g.nodes_data id1 id2 v1 hne').trans h2
    exact lookupKV_map_set_self (g.set_node id1 v1).nodes_data id2 v2 p2 hstep

/-- Witness for C7 at the concrete graph `gB`
(`NodeId 0 ↦ 10`, `NodeId 1 ↦ 20`), writing 77 and 88. -/
theorem index_twice_mut_independent_witness :
    gB.index_twice_mut ⟨0⟩ ⟨1⟩ = some (10, 20) ∧
    lookupKV (gB.set_node ⟨0⟩ 77).nodes_data ⟨1⟩ = some 20 ∧
    lookupKV (gB.set_node ⟨1⟩ 88).nodes_data ⟨0⟩ = some 10 ∧
    lookupKV ((gB.set_node ⟨0⟩ 77).set_node ⟨1⟩ 88).nodes_data ⟨0⟩ = some 77 ∧
    lookupKV ((gB.set_node ⟨0⟩ 77).set_node ⟨1⟩ 88).nodes_data ⟨1⟩ = some 88 :=
  index_twice_mut_independent gB ⟨0⟩ ⟨1⟩ 10 20 77 88 (by decide) rfl rfl

/-- C8: the adjacency query snapshots at call time: the value produced by
the `(k+1)`-st `next_node` call on the detached cursor is exactly the
`k`-th element of the owned snapshot list built when `neighbors` was
called (so the sequence is determined solely by the graph state at that
moment and later mutations are never observed), and once a call has
produced `none`, every later call also produces `none`. -/
theorem cursor_snapshot_one_shot {N E : Type} (g : Graph N E) (id : NodeId) :
    (∀ k, (stepN ((g.neighbors id).detach) k).1 = (g.neighbors id).list.get? k) ∧
    (∀ j m, j ≤ m → (stepN ((g.neighbors id).detach) j).1 = none →
      (stepN ((g.neighbors id).detach) m).1 = none) := by
  have hmain : ∀ k,
      (stepN ((g.neighbors id).detach) k).1 = (g.neighbors id).list.get? k := by
    intro k
    have h := stepN_fst_eq_get (l := (g.neighbors id).list) (i := 0) (Nat.zero_le _) k
    simpa [Neighbors.detach] using h
  refine ⟨hmain, ?_⟩
  intro j m hjm hnone
  rw [hmain] at hnone ⊢
  rw [List.get?_eq_none] at hnone ⊢
  omega

/-- Witness for C8 at the concrete graph `gAB`, node 0 (snapshot list of
length 1): the first step reproduces the snapshot entry, and after the
cursor is exhausted at step 5 it stays exhausted at step 6. -/
theorem cursor_snapshot_one_shot_witness :
    (stepN ((gAB.neighbors ⟨0⟩).detach) 0).1 = (gAB.neighbors ⟨0⟩).list.get? 0 ∧
    (stepN ((gAB.neighbors ⟨0⟩).detach) 6).1 = none :=
  ⟨(cursor_snapshot_one_shot gAB ⟨0⟩).1 0,
   (cursor_snapshot_one_shot gAB ⟨0⟩).2 5 6 (by decide) (by decide)⟩

/-- C10: `add_edge` performs no existence check on its endpoints: for
every graph and every pair of `NodeId` arguments — present in the node
store or not — it succeeds, inserting the payload and the endpoint pair
`(l, r)` under the fresh `EdgeId g.next_id` and leaving the node store
untouched. -/
theorem add_edge_unchecked {N E : Type} (g : Graph N E) (l r : NodeId) (d : E) :
    lookupKV (g.add_edge l r d).1.edges_data (g.add_edge l r d).2 = some d ∧
    lookupKV (g.add_edge l r d).1.edge_nodes (g.add_edge l r d).2 = some (l, r) ∧
    (g.add_edge l r d).1.nodes_data = g.nodes_data ∧
    (g.add_edge l r d).2 = ⟨g.next_id⟩ := by
  refine ⟨?_, ?_, rfl, rfl⟩
  · exact lookupKV_insertKV_self g.edges_data ⟨g.next_id⟩ d
  · exact lookupKV_insertKV_self g.edge_nodes ⟨g.next_id⟩ (l, r)

/-- C2: in a reachable state with node `n` present, `remove_node n`
decreases `node_count` by exactly one, every edge whose endpoint pair
contains `n` disappears from both the edge-endpoint index and the
edge-payload store, and no such edge appears in a subsequent
`visit_edges` enumeration. -/
theorem remove_node_cascades {N E : Type} (g : Graph N E) (n : NodeId)
    (h : Reachable g) (hn : (lookupKV g.nodes_data n).isSome) :
    (g.remove_node n).node_count + 1 = g.node_count ∧
    (∀ e l r, lookupKV g.edge_nodes e = some (l, r) → (l = n ∨ r = n) →
      lookupKV (g.remove_node n).edge_nodes e = none ∧
      lookupKV (g.remove_node n).edges_data e = none ∧
      ∀ t, (g.remove_node n).visit_edges = some t → ∀ x ∈ t, x.1 ≠ e) := by
  constructor
  · obtain ⟨v, hv⟩ := Option.isSome_iff_exists.mp hn
    have hnd := (reachable_wf g h).nodes_nodup
    have : (g.remove_node n).nodes_data = eraseKey n g.nodes_data := rfl
    rw [Graph.node_count, Graph.node_count, this]
    exact length_eraseKey_of_some g.nodes_data n v hnd hv
  · intro e l r hlook hinc
    have hmem : (e, (l, r)) ∈ g.edge_nodes := lookupKV_mem _ _ _ hlook
    have hfil : (e, (l, r)) ∈ g.edge_nodes.filter
        (fun p => decide (p.2.1 = n) || decide (p.2.2 = n)) := by
      refine List.mem_filter.mpr ⟨hmem, ?_⟩
      rcases hinc with hinc | hinc <;> simp [hinc]
    have hin : e ∈ (g.edge_nodes.filter
        (fun p => decide (p.2.1 = n) || decide (p.2.2 = n))).map Prod.fst :=
      List.mem_map.mpr ⟨(e, (l, r)), hfil, rfl⟩
    have hen : lookupKV (g.remove_node n).edge_nodes e = none := by
      have : (g.remove_node n).edge_nodes =
          ((g.edge_nodes.filter
            (fun p => decide (p.2.1 = n) || decide (p.2.2 = n))).map Prod.fst).foldl
            (fun m e => eraseKey e m) g.edge_nodes := rfl
      rw [this, lookupKV_foldl_eraseKey, if_pos hin]
    have hed : lookupKV (g.remove_node n).edges_data e = none := by
      have : (g.remove_node n).edges_data =
          ((g.edge_nodes.filter
            (fun p => decide (p.2.1 = n) || decide (p.2.2 = n))).map Prod.fst).foldl
            (fun m e => eraseKey e m) g.edges_data := rfl
      rw [this, lookupKV_foldl_eraseKey, if_pos hin]
    refine ⟨hen, hed, ?_⟩
    intro t ht x hx hxe
    have hkeys := visitAux_keys (g.remove_node n) (g.remove_node n).edges_data t ht
    have hxkey : x.1 ∈ (g.remove_node n).edges_data.map Prod.fst := by
      rw [← hkeys]
      exact List.mem_map.mpr ⟨x, hx, rfl⟩
    obtain ⟨p, hp, hpfst⟩ := List.mem_map.mp hxkey
    exact (lookupKV_eq_none_iff _ _).mp hed p hp (hpfst.trans hxe)

/-- Witness for C2: removing the present node `NodeId 1` from the
reachable graph `gAB` drops the count from 2 to 1 and removes the
incident edge `EdgeId 2` from the endpoint index. -/
theorem remove_node_cascades_witness :
    (gAB.remove_node ⟨1⟩).node_count + 1 = gAB.node_count ∧
    lookupKV (gAB.remove_node ⟨1⟩).edge_nodes ⟨2⟩ = none :=
  ⟨(remove_node_cascades gAB ⟨1⟩
      (Reachable.add_edge gB ⟨0⟩ ⟨1⟩ 5
        (Reachable.add_node gA 20 (Reachable.add_node g0 10 Reachable.new)))
      (by decide)).1,
   ((remove_node_cascades gAB ⟨1⟩
      (Reachable.add_edge gB ⟨0⟩ ⟨1⟩ 5
        (Reachable.add_node gA 20 (Reachable.add_node g0 10 Reachable.new)))
      (by decide)).2 ⟨2⟩ ⟨0⟩ ⟨1⟩ rfl (Or.inr rfl)).1⟩

/-- C3 counterexample: `add_edge(NodeId 0, NodeId 0, 7)` on the empty
graph is a sequence of public operations, yet the resulting state stores
endpoint `NodeId 0` in the edge-endpoint index while the node store is
empty — `add_edge` performs no validation, so the claimed invariant is
not maintained by every operation. -/
theorem dangling_edge_reachable :
    Reachable gDangling ∧ ¬ EndpointsValid gDangling := by
  constructor
  · exact Reachable.add_edge Graph.new ⟨0⟩ ⟨0⟩ 7 Reachable.new
  · intro h
    have hm : ((⟨0⟩ : EdgeId), ((⟨0⟩ : NodeId), (⟨0⟩ : NodeId))) ∈ gDangling.edge_nodes := by
      decide
    exact absurd (h _ hm).1 (by decide)

/-- C3 (amended): in every state reachable when `add_edge` is only
invoked with endpoints currently present in the node store (the caller
obligation), every endpoint `NodeId` stored in the edge-endpoint index
refers to a node currently present — maintained by cascading deletion,
with no validation at query time. -/
theorem endpoints_valid_reachableV {N E : Type} (g : Graph N E) (h : ReachableV g) :
    EndpointsValid g :=
  endpointsValid_preserved g h

/-- Witness for C3 (amended) at the concrete caller-validated state
`gAB`. -/
theorem endpoints_valid_reachableV_witness : EndpointsValid gAB :=
  endpoints_valid_reachableV gAB
    (ReachableV.add_edge gB ⟨0⟩ ⟨1⟩ 5
      (ReachableV.add_node gA 20 (ReachableV.add_node g0 10 ReachableV.new))
      (by decide) (by decide))

/-- C6 counterexample: on the reachable state holding the dangling edge
`(NodeId 0, NodeId 0)` with no nodes, `NodeId 0` is absent from the node
store, yet `remove_node(NodeId 0)` changes the graph (it removes the
dangling incident edge) — so removal of an absent handle is not always a
no-op on the entire state. -/
theorem remove_absent_node_mutates :
    lookupKV gDangling.nodes_data ⟨0⟩ = none ∧
    gDangling.remove_node ⟨0⟩ ≠ gDangling := by
  refine ⟨rfl, ?_⟩
  decide

/-- C6 (amended): `remove_edge` on an absent edge handle never fails and
leaves the state unchanged; `remove_node` on an absent node handle never
fails, and leaves the entire state unchanged provided no edge is incident
to that handle (absent a dangling edge created by unvalidated `add_edge`,
which it removes); and `remove_node` twice in succession always leaves the
state identical to the state after the first call. -/
theorem removal_noop_idempotent {N E : Type} (g : Graph N E) (n : NodeId) (e : EdgeId) :
    (lookupKV g.edges_data e = none → lookupKV g.edge_nodes e = none →
      g.remove_edge e = g) ∧
    (lookupKV g.nodes_data n = none →
      (∀ p ∈ g.edge_nodes, p.2.1 ≠ n ∧ p.2.2 ≠ n) → g.remove_node n = g) ∧
    (g.remove_node n).remove_node n = g.remove_node n := by
  refine ⟨?_, ?_, remove_node_idem g n⟩
  · intro hd hn
    have h1 : eraseKey e g.edge_nodes = g.edge_nodes :=
      eraseKey_of_lookupKV_none _ _ hn
    have h2 : eraseKey e g.edges_data = g.edges_data :=
      eraseKey_of_lookupKV_none _ _ hd
    cases g with
    | mk ni nd ed en =>
      simp only [Graph.remove_edge] at *
      simp [h1, h2]
  · intro hn he
    exact remove_node_noop g n hn he

/-- Witness for C6 at the concrete graph `gAB` with the never-issued
handles `EdgeId 9` and `NodeId 5`. -/
theorem removal_noop_idempotent_witness :
    gAB.remove_edge ⟨9⟩ = gAB ∧
    gAB.remove_node ⟨5⟩ = gAB ∧
    (gAB.remove_node ⟨5⟩).remove_node ⟨5⟩ = gAB.remove_node ⟨5⟩ :=
  ⟨(removal_noop_idempotent gAB ⟨5⟩ ⟨9⟩).1 rfl rfl,
   (removal_noop_idempotent gAB ⟨5⟩ ⟨9⟩).2.1 rfl (by decide),
   (removal_noop_idempotent gAB ⟨5⟩ ⟨9⟩).2.2⟩

/-- C9 counterexample: with nodes `0 ↦ 10` and `1 ↦ 20` both present and
an edge `(0, 1) ↦ 5` already in the graph, immediately after a second
`add_edge(0, 1, 5)` the enumeration contains the payload tuple
`(10, 20, 5)` twice — not exactly once as claimed. -/
theorem visit_edges_tuple_twice :
    lookupKV gB.nodes_data ⟨0⟩ = some 10 ∧
    lookupKV gB.nodes_data ⟨1⟩ = some 20 ∧
    ((gAB.add_edge ⟨0⟩ ⟨1⟩ 5).1.visit_edges).map
      (fun t => (t.filter (fun x => decide (x.2 = (10, 20, 5)))).length) = some 2 := by
  refine ⟨rfl, rfl, ?_⟩
  decide

/-- C9 (amended): with `l` and `r` present carrying payloads `pl` and
`pr`, the fresh `EdgeId` unused, and every pre-existing edge enumerable:
immediately after `add_edge(l, r, d)`, `visit_edges` succeeds and invokes
the callback exactly once with the newly returned `EdgeId`, that
invocation carrying `pl`, `pr` and `d` (an identical payload triple may
additionally appear for distinct pre-existing edges). -/
theorem visit_edges_new_edge_once {N E : Type} (g : Graph N E) (l r : NodeId) (d : E)
    (pl pr : N)
    (hl : lookupKV g.nodes_data l = some pl)
    (hr : lookupKV g.nodes_data r = some pr)
    (hfresh : lookupKV g.edges_data ⟨g.next_id⟩ = none)
    (hvalid : ∀ p ∈ g.edges_data, ∃ a b, lookupKV g.edge_nodes p.1 = some (a, b) ∧
      (lookupKV g.nodes_data a).isSome ∧ (lookupKV g.nodes_data b).isSome) :
    ∃ t, (g.add_edge l r d).1.visit_edges = some t ∧
      ((g.add_edge l r d).2, pl, pr, d) ∈ t ∧
      (t.filter (fun x => decide (x.1 = (g.add_edge l r d).2))).length = 1 := by
  have hkeyne : ∀ p ∈ g.edges_data, p.1 ≠ (⟨g.next_id⟩ : EdgeId) :=
    (lookupKV_eq_none_iff _ _).mp hfresh
  have hvalid' : ∀ p ∈ g.edges_data,
      ∃ a b, lookupKV (g.add_edge l r d).1.edge_nodes p.1 = some (a, b) ∧
        (lookupKV (g.add_edge l r d).1.nodes_data a).isSome ∧
        (lookupKV (g.add_edge l r d).1.nodes_data b).isSome := by
    intro p hp
    obtain ⟨a, b, hab, ha, hb⟩ := hvalid p hp
    refine ⟨a, b, ?_, ha, hb⟩
    have : (g.add_edge l r d).1.edge_nodes = insertKV g.edge_nodes ⟨g.next_id⟩ (l, r) :=
      rfl
    rw [this, lookupKV_insertKV_ne _ _ _ _ (fun hc => hkeyne p hp hc.symm)]
    exact hab
  obtain ⟨t0, ht0⟩ := visitAux_total (g.add_edge l r d).1 g.edges_data hvalid'
  have hed : (g.add_edge l r d).1.edges_data = (⟨g.next_id⟩, d) :: g.edges_data := by
    have : (g.add_edge l r d).1.edges_data = insertKV g.edges_data ⟨g.next_id⟩ d := rfl
    rw [this, insertKV, eraseKey_of_lookupKV_none _ _ hfresh]
  have hvisit : (g.add_edge l r d).1.visit_edges =
      some ((⟨g.next_id⟩, pl, pr, d) :: t0) := by
    rw [Graph.visit_edges, hed]
    have hlook : lookupKV (g.add_edge l r d).1.edge_nodes ⟨g.next_id⟩ = some (l, r) :=
      lookupKV_insertKV_self g.edge_nodes ⟨g.next_id⟩ (l, r)
    have hnodes : (g.add_edge l r d).1.nodes_data = g.nodes_data := rfl
    simp [visitAux, hlook, hnodes, hl, hr, ht0]
  have ht0keys : ∀ x ∈ t0, x.1 ≠ (⟨g.next_id⟩ : EdgeId) := by
    intro x hx
    have hkeys := visitAux_keys (g.add_edge l r d).1 g.edges_data t0 ht0
    have : x.1 ∈ g.edges_data.map Prod.fst := by
      rw [← hkeys]
      exact List.mem_map.mpr ⟨x, hx, rfl⟩
    obtain ⟨p, hp, hpfst⟩ := List.mem_map.mp this
    exact fun hc => hkeyne p hp (hpfst.trans hc)
  refine ⟨(⟨g.next_id⟩, pl, pr, d) :: t0, hvisit, List.mem_cons_self _ _, ?_⟩
  have hfil : t0.filter (fun x => decide (x.1 = (g.add_edge l r d).2)) = [] := by
    rw [List.filter_eq_nil_iff]
    intro x hx
    simpa using ht0keys x hx
  rw [List.filter_cons]
  simp only [hfil]
  have : decide (((⟨g.next_id⟩ : EdgeId), pl, pr, d).1 = (g.add_edge l r d).2) = true := by
    simp [Graph.add_edge]
  rw [if_pos this]
  rfl

/-- Witness for C9 (amended): adding the edge `(0, 1) ↦ 5` to `gB`
(nodes `0 ↦ 10`, `1 ↦ 20`, no edges) enumerates the new edge exactly
once with payloads 10, 20 and 5. -/
theorem visit_edges_new_edge_once_witness :
    gAB.visit_edges = some [((⟨2⟩ : EdgeId), (10 : Nat), (20 : Nat), (5 : Nat))] ∧
    (gAB.visit_edges).map
      (fun t => (t.filter (fun x => decide (x.1 = (gB.add_edge ⟨0⟩ ⟨1⟩ 5).2))).length) =
      some 1 := by
  obtain ⟨t, ht, hmem, hcount⟩ :=
    visit_edges_new_edge_once gB ⟨0⟩ ⟨1⟩ 5 10 20 rfl rfl rfl
      (fun p hp => absurd (by exact hp) (by rw [show gB.edges_data = [] from rfl]; simp))
  refine ⟨rfl, ?_⟩
  rw [show gAB = (gB.add_edge ⟨0⟩ ⟨1⟩ 5).1 from rfl, ht, Option.map_some',
    Option.some_inj, hcount]

end NaiveGraph
